import Mathlib

/-!
Verification of the combat-unit core of `hunter-sim` (`hunter-sim/units.py`).

The Python source is embedded shallowly:
* floats become `ℚ` (decimal literals are exact rationals);
* Python's float floor division `x // y` becomes `⌊x / y⌋` cast back to `ℚ`;
* the shared scheduling queue is a `List Entry` of `(time, tie-break, kind)`
  triples ordered lexicographically, exactly as Python orders tuples;
* the `heapq` standard-library functions used by the source (`heappush`,
  `heapify`) are embedded as the algorithms of CPython's `heapq` module
  (`_siftdown`, `_siftup`, `heapify`, `heappush`);
* random draws (`random.random()`) become explicit `ℚ` parameters;
* mutation of the enemy object and of the simulation context becomes explicit
  state passing (`Enemy`, `Sim`); external side effects performed by death
  handling are additionally recorded in an ordered `Effect` trace.
-/

namespace HunterSim

/-- The two supported hunter variants (`Borge`, `Ozzy`); `fetch_stats` raises
`ValueError` on any other hunter, so only these two inhabit the model. -/
inductive Hunter where
  | Borge : Hunter
  | Ozzy : Hunter
deriving DecidableEq

/-- A scheduling entry of the shared simulation queue: a Python triple
`(scheduled time, tie-break, unit-kind tag)`. -/
structure Entry where
  time : ℚ
  tie : ℤ
  kind : String
deriving DecidableEq

/-- Default entry used for out-of-range list reads (never reached by the
verified code paths). -/
def dEntry : Entry := ⟨0, 0, ""⟩

/-- Python's `<` on `(time, tie, kind)` triples: lexicographic comparison. -/
def entryLtb (a b : Entry) : Bool :=
  decide (a.time < b.time) ||
    (decide (a.time = b.time) &&
      (decide (a.tie < b.tie) ||
        (decide (a.tie = b.tie) && decide (a.kind < b.kind))))

/-- Python float floor division `x // y` (`math.floor(x / y)` as a float). -/
def pyFloorDiv (x y : ℚ) : ℚ := (⌊x / y⌋ : ℤ)

/-- The stat bundle returned by a `fetch_stats` call (the dict keys of the
Python source, as one record). -/
structure Stats where
  hp : ℚ
  power : ℚ
  regen : ℚ
  special_chance : ℚ
  special_damage : ℚ
  damage_reduction : ℚ
  evade_chance : ℚ
  speed : ℚ
deriving DecidableEq

/-- `Enemy.fetch_stats`: stage-scaled stats of a regular enemy for the given
hunter variant.  Note on the `stage >= 150` factor: in the Python expression
`0.006 + 0.006 * (stage-150) // 50`, `*` and `//` have equal precedence and
associate left, so it reads `0.006 + ((0.006 * (stage-150)) // 50)`, a float
floor division of the product; `stage // 150` is integer floor division. -/
def Enemy.fetch_stats (hunter : Hunter) (stage : ℕ) : Stats :=
  match hunter with
  | .Borge =>
      { hp :=
          (9 + (stage : ℚ) * 4)
          * (if 100 < stage then 2.85 else 1)
          * (if 150 ≤ stage then
              1 + ((stage / 150 : ℕ) : ℚ) * ((stage : ℚ) - 149)
                  * (0.006 + pyFloorDiv (0.006 * ((stage : ℚ) - 150)) 50)
            else 1)
        power :=
          (2.5 + (stage : ℚ) * 0.7)
          * (if 100 < stage then 2.85 else 1)
          * (if 150 ≤ stage then
              1 + ((stage : ℚ) - 149)
                  * (0.006 + pyFloorDiv (0.006 * ((stage : ℚ) - 150)) 50)
            else 1)
        regen :=
          (if 1 < stage then 0.00 + ((stage : ℚ) - 1) * 0.08 else 0)
          * (if 100 < stage then 1.052 else 1)
          * (if 150 ≤ stage then
              1 + ((stage : ℚ) - 149)
                  * (0.006 + pyFloorDiv (0.006 * ((stage : ℚ) - 150)) 50)
            else 1)
        special_chance := 0.0322 + (stage : ℚ) * 0.0004
        special_damage := 1.21 + (stage : ℚ) * 0.008025
        damage_reduction := 0
        evade_chance := 0 + (if 100 < stage then 0.004 else 0)
        speed := 4.53 - (stage : ℚ) * 0.006 }
  | .Ozzy =>
      { hp :=
          (11 + (stage : ℚ) * 6)
          * (if 100 < stage then 2.9 else 1)
          * (if 150 ≤ stage then
              1 + ((stage / 150 : ℕ) : ℚ) * ((stage : ℚ) - 149)
                  * (0.006 + pyFloorDiv (0.006 * ((stage : ℚ) - 150)) 50)
            else 1)
        power :=
          (1.35 + (stage : ℚ) * 0.75)
          * (if 100 < stage then 2.7 else 1)
          * (if 150 ≤ stage then
              1 + ((stage : ℚ) - 149)
                  * (0.006 + pyFloorDiv (0.006 * ((stage : ℚ) - 150)) 50)
            else 1)
        regen :=
          (if 0 < stage then 0.02 + ((stage : ℚ) - 1) * 0.1 else 0)
          * (if 100 < stage then 1.25 else 1)
          * (if 150 ≤ stage then
              1 + ((stage : ℚ) - 149)
                  * (0.006 + pyFloorDiv (0.006 * ((stage : ℚ) - 150)) 50)
            else 1)
        special_chance := 0.0994 + (stage : ℚ) * 0.0006
        special_damage := 1.03 + (stage : ℚ) * 0.008
        damage_reduction := 0
        evade_chance := 0 + (if 100 < stage then 0.01 else 0)
        speed := 3.20 - (stage : ℚ) * 0.004 }

/-- The mutable state of a combat unit (the instance attributes set by
`Enemy.__create__`). -/
structure Enemy where
  name : String
  hp : ℚ
  max_hp : ℚ
  power : ℚ
  regen : ℚ
  damage_reduction : ℚ
  evade_chance : ℚ
  special_chance : ℚ
  special_damage : ℚ
  speed : ℚ
  stun_duration : ℚ
deriving DecidableEq

/-- `Enemy.__create__`: fills the instance fields from a stat bundle, applying
the 2024-01-24 balance patch caps on crit chance and crit damage. -/
def Enemy.create (name : String) (s : Stats) : Enemy :=
  { name := name
    hp := s.hp
    max_hp := s.hp
    power := s.power
    regen := s.regen
    damage_reduction := s.damage_reduction
    evade_chance := s.evade_chance
    special_chance := min s.special_chance 0.25
    special_damage := min s.special_damage 2.5
    speed := s.speed
    stun_duration := 0 }

/-- `Enemy.__init__` for a regular enemy, without the external on-creation
hunter hooks (`on_create` calls hunter-owned capability methods that live
outside the core and are identity here). -/
def Enemy.init (name : String) (hunter : Hunter) (stage : ℕ) : Enemy :=
  Enemy.create name (Enemy.fetch_stats hunter stage)

/-- The `missing_hp` property. -/
def Enemy.missing_hp (e : Enemy) : ℚ := e.max_hp - e.hp

/-- `Enemy.is_dead`. -/
def Enemy.is_dead (e : Enemy) : Bool := decide (e.hp ≤ 0)

/-- `Enemy.heal_hp`: heal clamped by missing hp; the `source` argument is only
used by logging in the Python source. -/
def Enemy.heal_hp (e : Enemy) (value : ℚ) (_source : String) : Enemy :=
  { e with hp := e.hp + min value e.missing_hp }

/-- `Enemy.kill`: force hp to 0; the death hook is commented out in the
source and is not invoked. -/
def Enemy.kill (e : Enemy) : Enemy := { e with hp := 0 }

/-- `Enemy.attack`: one uniform draw `r`; a special (crit) hit multiplies
power by `special_damage`.  Returns the damage forwarded to the hunter and
the crit flag. -/
def Enemy.attack (e : Enemy) (r : ℚ) : ℚ × Bool :=
  if r < e.special_chance then (e.power * e.special_damage, true)
  else (e.power, false)

end HunterSim

namespace HunterSim.heapq

open HunterSim

/-- Read of `heap[i]` (all verified accesses are in range). -/
def get (l : List Entry) (i : ℕ) : Entry := l.getD i dEntry

/-- The loop of CPython's `heapq._siftdown(heap, startpos, pos)`: bubble the
hole at `pos` toward the root, moving parents down while `newitem` is smaller,
returning the array of moved parents and the final hole position. -/
def siftdownLoop (newitem : Entry) (heap : List Entry) (startpos pos : ℕ) :
    List Entry × ℕ :=
  if _h : startpos < pos then
    if entryLtb newitem (get heap ((pos - 1) / 2)) then
      siftdownLoop newitem (heap.set pos (get heap ((pos - 1) / 2))) startpos
        ((pos - 1) / 2)
    else (heap, pos)
  else (heap, pos)
termination_by pos
decreasing_by omega

/-- CPython's `heapq._siftdown`: `newitem` is read from `heap[pos]`, bubbled
up to its place, and written there. -/
def siftdown (heap : List Entry) (startpos pos : ℕ) : List Entry :=
  let newitem := get heap pos
  let r := siftdownLoop newitem heap startpos pos
  r.1.set r.2 newitem

/-- CPython's `heapq.heappush`: append then sift up from the last slot. -/
def heappush (heap : List Entry) (item : Entry) : List Entry :=
  siftdown (heap ++ [item]) 0 heap.length

/-- Child selection of CPython's `heapq._siftup` loop body: the right child
`2*pos+2` when it exists and `not heap[2*pos+1] < heap[2*pos+2]`, else the
left child. -/
def child (heap : List Entry) (pos : ℕ) : ℕ :=
  if 2 * pos + 2 < heap.length ∧
      entryLtb (get heap (2 * pos + 1)) (get heap (2 * pos + 2)) = false
  then 2 * pos + 2 else 2 * pos + 1

/-- The loop of CPython's `heapq._siftup(heap, pos)`: move the hole down to a
leaf along the smaller-child path, shifting children up. -/
def siftupLoop (heap : List Entry) (pos : ℕ) : List Entry × ℕ :=
  if _h : 2 * pos + 1 < heap.length then
    siftupLoop (heap.set pos (get heap (child heap pos))) (child heap pos)
  else (heap, pos)
termination_by heap.length - pos
decreasing_by
  simp only [List.length_set]
  unfold child
  split <;> omega

/-- CPython's `heapq._siftup`: capture `heap[pos]`, sink the hole to a leaf,
write the captured item there and sift it back down toward `pos`. -/
def siftup (heap : List Entry) (pos : ℕ) : List Entry :=
  let newitem := get heap pos
  let r := siftupLoop heap pos
  siftdown (r.1.set r.2 newitem) pos r.2

/-- The countdown loop of CPython's `heapq.heapify`:
`for i in reversed(range(n//2)): _siftup(x, i)`. -/
def heapifyAux (heap : List Entry) : ℕ → List Entry
  | 0 => heap
  | i + 1 => heapifyAux (siftup heap i) i

/-- CPython's `heapq.heapify`. -/
def heapify (heap : List Entry) : List Entry := heapifyAux heap (heap.length / 2)

/-- The min-heap invariant of a Python heap list: no element is smaller than
its parent `(j-1)/2`. -/
def isHeap (l : List Entry) : Bool :=
  (List.range l.length).all fun j =>
    j == 0 || !(entryLtb (get l j) (get l ((j - 1) / 2)))

/-- Heap edges whose parent index is at least `start` are ordered; `HeapFrom 0`
is the full heap invariant.  CPython's `heapify` extends this region from
`len//2` down to the root. -/
def HeapFrom (start : ℕ) (l : List Entry) : Prop :=
  ∀ j, 0 < j → j < l.length → start ≤ (j - 1) / 2 →
    entryLtb (get l j) (get l ((j - 1) / 2)) = false

/-- Iterated parent index, used to state that a position lies in the subtree
of the sift start. -/
def parIter : ℕ → ℕ → ℕ
  | 0, q => q
  | d + 1, q => parIter d ((q - 1) / 2)

end HunterSim.heapq

namespace HunterSim

/-- The slice of the simulation context the combat unit mutates: the shared
queue, the hunter's kill counter and the hunter's per-run enrage log. -/
structure Sim where
  queue : List Entry
  total_kills : ℕ
  enrage_log : List ℕ
deriving DecidableEq

/-- External side effects of death handling, in execution order. -/
inductive Effect where
  | killInc : Effect
  | purgeEnemies : Effect
  | enrageAppend : ℕ → Effect
deriving DecidableEq

/-- `Enemy.on_death`: increment the hunter's kill counter, then drop every
"enemy"-kind queue entry and re-heapify.  The returned trace lists the
external effects in the order the source performs them. -/
def Enemy.on_death (sim : Sim) : Sim × List Effect :=
  ({ sim with
      total_kills := sim.total_kills + 1
      queue := heapq.heapify (sim.queue.filter fun en => !(en.kind == "enemy")) },
   [Effect.killInc, Effect.purgeEnemies])

/-- `Enemy.receive_damage`: unless the damage is reflected, a uniform draw
below `evade_chance` negates the hit; otherwise mitigated damage lands and
death handling runs when hp drops to 0 or below. -/
def Enemy.receive_damage (e : Enemy) (sim : Sim) (damage : ℚ)
    (is_reflected : Bool) (r : ℚ) : Enemy × Sim :=
  if is_reflected = false ∧ r < e.evade_chance then (e, sim)
  else
    let mitigated := damage * (1 - e.damage_reduction)
    let e' := { e with hp := e.hp - mitigated }
    if e'.is_dead then (e', (Enemy.on_death sim).1) else (e', sim)

/-- `Enemy.regen_hp`: heal by the regen stat, then re-check death (hp can have
been pushed below 0 through the same tick by external effects). -/
def Enemy.regen_hp (e : Enemy) (sim : Sim) : Enemy × Sim :=
  let e' := e.heal_hp e.regen "regen"
  if e'.is_dead then (e', (Enemy.on_death sim).1) else (e', sim)

/-- `Enemy.stun`: take the first "enemy"-kind queue entry, remove it with a
plain list removal, and heap-push it back with its time increased by
`duration`.  `none` models the `IndexError` the source raises when no such
entry exists. -/
def Enemy.stun (sim : Sim) (duration : ℚ) : Option Sim :=
  match sim.queue.filter (fun en => en.kind == "enemy") with
  | [] => none
  | qe :: _ =>
      some { sim with
              queue := heapq.heappush (sim.queue.erase qe)
                        { time := qe.time + duration, tie := qe.tie, kind := qe.kind } }

/-- The mutable state of a boss (`Boss.__init__` adds enrage bookkeeping to
the base enemy state; `speed` of the base record stores the raw `_speed`
behind the derived speed property). -/
structure Boss where
  base : Enemy
  enrage_stacks : ℕ
  max_enrage : Bool
  enrage_effect : ℚ
deriving DecidableEq

/-- `Boss.fetch_stats`: stage-independent hardcoded boss stat table. -/
def Boss.fetch_stats (hunter : Hunter) (_stage : ℕ) : Stats :=
  match hunter with
  | .Borge =>
      { hp := 36810
        power := 263.18
        regen := 15.21
        special_chance := 0.1122
        special_damage := 2.26
        damage_reduction := 0.05
        evade_chance := 0.004
        speed := 9.50 }
  | .Ozzy =>
      { hp := 29328
        power := 229.05
        regen := 59.52
        special_chance := 0.3094
        special_damage := 1.83
        damage_reduction := 0.05
        evade_chance := 0.01
        speed := 6.87 }

/-- `Boss.__init__` (without the external on-creation hooks): base enemy state
from the boss stat table, zero enrage stacks, the per-variant enrage effect. -/
def Boss.init (name : String) (hunter : Hunter) (stage : ℕ) : Boss :=
  { base := Enemy.create name (Boss.fetch_stats hunter stage)
    enrage_stacks := 0
    max_enrage := false
    enrage_effect :=
      match hunter with
      | .Borge => 0.0475
      | .Ozzy => 0.033658536585365856 }

/-- `Boss.attack`: the base attack resolves the damage from the draw `r`; then
enrage stacks increment unconditionally, and reaching 200 stacks while not yet
max-enraged latches `max_enrage`, triples power and sets special chance to 1. -/
def Boss.attack (b : Boss) (r : ℚ) : Boss × (ℚ × Bool) :=
  let dmg := b.base.attack r
  let b1 := { b with enrage_stacks := b.enrage_stacks + 1 }
  let b2 :=
    if 200 ≤ b1.enrage_stacks ∧ b1.max_enrage = false then
      { b1 with
          max_enrage := true
          base := { b1.base with power := b1.base.power * 3, special_chance := 1 } }
    else b1
  (b2, dmg)

/-- Fold of `Boss.attack` over a list of uniform draws (one per attack). -/
def Boss.attackN (b : Boss) (rs : List ℚ) : Boss :=
  rs.foldl (fun bb r => (Boss.attack bb r).1) b

/-- `Boss.on_death`: delegate to the base `Enemy.on_death`, then append the
final enrage stack count to the hunter's enrage log. -/
def Boss.on_death (b : Boss) (sim : Sim) : Sim × List Effect :=
  let r := Enemy.on_death sim
  ({ r.1 with enrage_log := r.1.enrage_log ++ [b.enrage_stacks] },
   r.2 ++ [Effect.enrageAppend b.enrage_stacks])

/-- The derived `Boss.speed` property: recomputed from the stored raw speed
and the current enrage stacks on every read, floored at 0.5. -/
def Boss.speed (b : Boss) : ℚ :=
  max (b.base.speed - b.enrage_effect * (b.enrage_stacks : ℚ)) 0.5

/-- Modelled from the spec: the spec reads the stage ≥ 150 coefficient as
`0.006 + 0.006 * ((stage-150) // 50)`, an integer step function that
re-steepens every 50 stages past 150.  This is the Borge power formula under
that reading, used to compare the spec's claim against the source formula. -/
def specSteppedBorgePower (stage : ℕ) : ℚ :=
  (2.5 + (stage : ℚ) * 0.7)
  * (if 100 < stage then 2.85 else 1)
  * (if 150 ≤ stage then
      1 + ((stage : ℚ) - 149)
          * (0.006 + 0.006 * (((stage - 150) / 50 : ℕ) : ℚ))
    else 1)

end HunterSim

namespace HunterSim

/-! ## Basic lemmas about the combat unit operations -/

theorem Boss.attack_stacks (b : Boss) (r : ℚ) :
    (Boss.attack b r).1.enrage_stacks = b.enrage_stacks + 1 := by
  simp only [Boss.attack]
  split <;> rfl

theorem Boss.attack_not_yet (b : Boss) (r : ℚ) (hs : b.enrage_stacks + 1 ≤ 199) :
    (Boss.attack b r).1 = { b with enrage_stacks := b.enrage_stacks + 1 } := by
  simp only [Boss.attack]
  rw [if_neg]
  simp only [not_and]
  intro hc
  omega

theorem Boss.attack_latch (b : Boss) (r : ℚ) (h : b.max_enrage = false)
    (hs : 199 ≤ b.enrage_stacks) :
    (Boss.attack b r).1 =
      { b with
          enrage_stacks := b.enrage_stacks + 1
          max_enrage := true
          base := { b.base with power := b.base.power * 3, special_chance := 1 } } := by
  simp only [Boss.attack]
  rw [if_pos ⟨by omega, h⟩]

theorem Boss.attack_enraged (b : Boss) (r : ℚ) (h : b.max_enrage = true) :
    (Boss.attack b r).1 = { b with enrage_stacks := b.enrage_stacks + 1 } := by
  simp only [Boss.attack]
  rw [if_neg]
  simp [h]

theorem Boss.attackN_below (b : Boss) (rs : List ℚ)
    (hlen : b.enrage_stacks + rs.length ≤ 199) :
    Boss.attackN b rs =
      { b with enrage_stacks := b.enrage_stacks + rs.length } := by
  induction rs generalizing b with
  | nil => simp [Boss.attackN]
  | cons r rs ih =>
      have hstep := Boss.attack_not_yet b r (by simp at hlen; omega)
      show Boss.attackN (Boss.attack b r).1 rs = _
      rw [hstep, ih _ (by simp at hlen ⊢; omega)]
      simp only [List.length_cons]
      congr 1
      omega

theorem Boss.attackN_append (b : Boss) (xs ys : List ℚ) :
    Boss.attackN b (xs ++ ys) = Boss.attackN (Boss.attackN b xs) ys := by
  simp [Boss.attackN, List.foldl_append]

/-! ## C4 -/

/-- C4: every boss attack increments `enrage_stacks` by exactly 1 regardless
of the uniform draw; starting from a fresh boss (0 stacks, not enraged), after
200 attacks `max_enrage` is latched, power is exactly 3 times its pre-enrage
value and special chance is exactly 1; a 201st attack leaves power and special
chance unchanged. -/
theorem C4_boss_enrage (b : Boss) (rs : List ℚ) (r' : ℚ)
    (h0 : b.enrage_stacks = 0) (h1 : b.max_enrage = false)
    (hlen : rs.length = 200) :
    (∀ (b' : Boss) (r : ℚ), (Boss.attack b' r).1.enrage_stacks = b'.enrage_stacks + 1) ∧
    (Boss.attackN b rs).max_enrage = true ∧
    (Boss.attackN b rs).base.power = 3 * b.base.power ∧
    (Boss.attackN b rs).base.special_chance = 1 ∧
    (Boss.attack (Boss.attackN b rs) r').1.base.power = 3 * b.base.power ∧
    (Boss.attack (Boss.attackN b rs) r').1.base.special_chance = 1 := by
  refine ⟨fun b' r => Boss.attack_stacks b' r, ?_⟩
  obtain ⟨x, hx⟩ : ∃ x, rs.drop 199 = [x] := by
    have : (rs.drop 199).length = 1 := by simp [hlen]
    exact List.length_eq_one.mp this
  have hsplit : rs = rs.take 199 ++ [x] := by
    rw [← hx, List.take_append_drop]
  have htl : (rs.take 199).length = 199 := by
    simp [List.length_take, hlen]
  have h199 : Boss.attackN b (rs.take 199) =
      { b with enrage_stacks := b.enrage_stacks + 199 } := by
    have := Boss.attackN_below b (rs.take 199) (by rw [htl, h0])
    rwa [htl] at this
  have hfull : Boss.attackN b rs =
      { b with
          enrage_stacks := b.enrage_stacks + 200
          max_enrage := true
          base := { b.base with power := b.base.power * 3, special_chance := 1 } } := by
    rw [hsplit, Boss.attackN_append, h199]
    show (Boss.attack _ x).1 = _
    rw [Boss.attack_latch _ x (by simp [h1]) (by simp [h0])]
  have hpost := Boss.attack_enraged (Boss.attackN b rs) r' (by rw [hfull])
  refine ⟨by rw [hfull], by rw [hfull]; ring, by rw [hfull], ?_, ?_⟩
  · rw [hpost, hfull]; ring
  · rw [hpost, hfull]

/-- Witness for C4 at a concrete fresh Borge boss and 200 concrete draws. -/
theorem C4_boss_enrage_witness :
    (Boss.init "B" Hunter.Borge 100).enrage_stacks = 0 ∧
    (Boss.init "B" Hunter.Borge 100).max_enrage = false ∧
    (List.replicate 200 (1/2 : ℚ)).length = 200 ∧
    (Boss.attackN (Boss.init "B" Hunter.Borge 100) (List.replicate 200 (1/2))).base.power
      = 3 * (Boss.init "B" Hunter.Borge 100).base.power ∧
    (Boss.attackN (Boss.init "B" Hunter.Borge 100) (List.replicate 200 (1/2))).base.special_chance = 1 ∧
    (Boss.attack (Boss.attackN (Boss.init "B" Hunter.Borge 100) (List.replicate 200 (1/2))) 0).1.base.power
      = 3 * (Boss.init "B" Hunter.Borge 100).base.power :=
  ⟨rfl, rfl, by rw [List.length_replicate],
    (C4_boss_enrage (Boss.init "B" Hunter.Borge 100) (List.replicate 200 (1/2)) 0 rfl rfl
      (by rw [List.length_replicate])).2.2.1,
    (C4_boss_enrage (Boss.init "B" Hunter.Borge 100) (List.replicate 200 (1/2)) 0 rfl rfl
      (by rw [List.length_replicate])).2.2.2.1,
    (C4_boss_enrage (Boss.init "B" Hunter.Borge 100) (List.replicate 200 (1/2)) 0 rfl rfl
      (by rw [List.length_replicate])).2.2.2.2.1⟩

/-! ## C2 -/

/-- C2: for every hunter variant, stage and unit kind, the constructed unit's
special chance is at most 0.25 and its special damage is at most 2.5 — the
caps applied in `Enemy.__create__` clamp every generated stat bundle,
including the hardcoded boss tables. -/
theorem C2_special_caps (h : Hunter) (stage : ℕ) (name : String) :
    (Enemy.init name h stage).special_chance ≤ 0.25 ∧
    (Enemy.init name h stage).special_damage ≤ 2.5 ∧
    (Boss.init name h stage).base.special_chance ≤ 0.25 ∧
    (Boss.init name h stage).base.special_damage ≤ 2.5 := by
  refine ⟨?_, ?_, ?_, ?_⟩ <;>
    simp only [Enemy.init, Boss.init, Enemy.create] <;>
    exact min_le_right _ _

/-! ## C6 -/

/-- C6: with `0 ≤ hp ≤ max_hp` and a non-negative heal value, `heal_hp` adds
exactly `min value missing_hp`, never raises hp above `max_hp`, never lowers
hp (so it cannot trigger death processing: a unit alive before a heal is
alive after), and healing twice the missing amount produces the same final hp
as healing exactly the missing amount. -/
theorem C6_heal_clamp (e : Enemy) (v : ℚ) (src src' : String)
    (h0 : 0 ≤ e.hp) (h1 : e.hp ≤ e.max_hp) (hv : 0 ≤ v) :
    (e.heal_hp v src).hp = e.hp + min v e.missing_hp ∧
    (e.heal_hp v src).hp ≤ e.max_hp ∧
    e.hp ≤ (e.heal_hp v src).hp ∧
    ((e.heal_hp v src).is_dead = true → e.is_dead = true) ∧
    (e.heal_hp (2 * e.missing_hp) src').hp = (e.heal_hp e.missing_hp src').hp := by
  have hm : 0 ≤ e.max_hp - e.hp := by linarith
  refine ⟨rfl, ?_, ?_, ?_, ?_⟩
  · have hmr := min_le_right v (e.max_hp - e.hp)
    simp only [Enemy.heal_hp, Enemy.missing_hp]
    linarith
  · have hmin : 0 ≤ min v (e.max_hp - e.hp) := le_min hv hm
    simp only [Enemy.heal_hp, Enemy.missing_hp]
    linarith
  · simp only [Enemy.is_dead, Enemy.heal_hp, Enemy.missing_hp, decide_eq_true_eq]
    intro hle
    have hmin : 0 ≤ min v (e.max_hp - e.hp) := le_min hv hm
    linarith
  · simp only [Enemy.heal_hp, Enemy.missing_hp]
    rw [min_eq_right (by linarith : e.max_hp - e.hp ≤ 2 * (e.max_hp - e.hp)),
      min_self]

/-- Witness for C6 at a concrete unit with hp 3 of 10 and heal value 5. -/
theorem C6_heal_clamp_witness :
    (0 : ℚ) ≤ (⟨"E", 3, 10, 0, 0, 0, 0, 0, 0, 0, 0⟩ : Enemy).hp ∧
    (⟨"E", 3, 10, 0, 0, 0, 0, 0, 0, 0, 0⟩ : Enemy).hp ≤ (⟨"E", 3, 10, 0, 0, 0, 0, 0, 0, 0, 0⟩ : Enemy).max_hp ∧
    (0 : ℚ) ≤ 5 ∧
    ((⟨"E", 3, 10, 0, 0, 0, 0, 0, 0, 0, 0⟩ : Enemy).heal_hp 5 "regen").hp ≤ (⟨"E", 3, 10, 0, 0, 0, 0, 0, 0, 0, 0⟩ : Enemy).max_hp :=
  ⟨by norm_num, by norm_num, by norm_num,
    (C6_heal_clamp _ 5 "regen" "regen" (by norm_num) (by norm_num) (by norm_num)).2.1⟩

/-! ## C7 -/

/-- C7: reflected damage never takes the evasion branch for any draw and any
evade chance: the mitigated damage always lands, death handling runs exactly
when the resulting hp is at most 0; a non-reflected hit whose draw is below
the evade chance is fully negated. -/
theorem C7_reflected_damage (e : Enemy) (sim : Sim) (damage r : ℚ) :
    (Enemy.receive_damage e sim damage true r).1.hp
        = e.hp - damage * (1 - e.damage_reduction) ∧
    (e.hp - damage * (1 - e.damage_reduction) ≤ 0 →
      (Enemy.receive_damage e sim damage true r).2.total_kills = sim.total_kills + 1) ∧
    (0 < e.hp - damage * (1 - e.damage_reduction) →
      (Enemy.receive_damage e sim damage true r).2 = sim) ∧
    (r < e.evade_chance →
      Enemy.receive_damage e sim damage false r = (e, sim)) := by
  have hcond : ¬((true : Bool) = false ∧ r < e.evade_chance) := by simp
  refine ⟨?_, ?_, ?_, ?_⟩
  · simp only [Enemy.receive_damage, if_neg hcond]
    split <;> rfl
  · intro hdead
    simp only [Enemy.receive_damage, if_neg hcond]
    rw [if_pos (by simp [Enemy.is_dead]; linarith)]
    simp [Enemy.on_death]
  · intro halive
    simp only [Enemy.receive_damage, if_neg hcond]
    rw [if_neg (by simp [Enemy.is_dead]; linarith)]
  · intro hevade
    simp [Enemy.receive_damage, hevade]

/-- Witness for C7: a unit with evade chance 1 still takes lethal reflected
damage and the kill counter increments; the same draw evades a non-reflected
hit. -/
theorem C7_reflected_damage_witness :
    ((⟨"E", 1, 1, 0, 0, 0, 1, 0, 0, 0, 0⟩ : Enemy).hp - 5 * (1 - (⟨"E", 1, 1, 0, 0, 0, 1, 0, 0, 0, 0⟩ : Enemy).damage_reduction) ≤ 0) ∧
    (Enemy.receive_damage ⟨"E", 1, 1, 0, 0, 0, 1, 0, 0, 0, 0⟩ ⟨[], 0, []⟩ 5 true (1/2)).2.total_kills
      = (⟨[], 0, []⟩ : Sim).total_kills + 1 ∧
    ((1/2 : ℚ) < (⟨"E", 1, 1, 0, 0, 0, 1, 0, 0, 0, 0⟩ : Enemy).evade_chance) ∧
    Enemy.receive_damage ⟨"E", 1, 1, 0, 0, 0, 1, 0, 0, 0, 0⟩ ⟨[], 0, []⟩ 5 false (1/2)
      = (⟨"E", 1, 1, 0, 0, 0, 1, 0, 0, 0, 0⟩, (⟨[], 0, []⟩ : Sim)) :=
  ⟨by norm_num,
    (C7_reflected_damage _ _ 5 (1/2)).2.1 (by norm_num),
    by norm_num,
    (C7_reflected_damage _ _ 5 (1/2)).2.2.2 (by norm_num)⟩

/-! ## C8 -/

/-- C8: boss speed is derived on every read as
`max (raw speed - enrage_effect * enrage_stacks) 0.5`, never drops below the
0.5 floor for any stack count, and an attack's stack increment is reflected
in the very next read (nothing is cached). -/
theorem C8_boss_speed (b : Boss) :
    b.speed = max (b.base.speed - b.enrage_effect * (b.enrage_stacks : ℚ)) 0.5 ∧
    0.5 ≤ b.speed ∧
    ∀ r : ℚ, (Boss.attack b r).1.speed
      = max (b.base.speed - b.enrage_effect * ((b.enrage_stacks : ℚ) + 1)) 0.5 := by
  refine ⟨rfl, le_max_right _ _, fun r => ?_⟩
  simp only [Boss.attack, Boss.speed]
  split <;> push_cast <;> ring_nf

/-! ## C9 -/

/-- C9 counterexample: at a concrete boss death, the first external effect in
the trace is the kill-counter increment performed by the delegated base
handler, not the enrage-log append — the claim's "append happens first" is
false. -/
theorem C9_counterexample :
    ((Boss.init "B" Hunter.Borge 100).on_death ⟨[], 0, []⟩).2.head?
      ≠ some (Effect.enrageAppend (Boss.init "B" Hunter.Borge 100).enrage_stacks) := by
  simp [Boss.on_death, Enemy.on_death]

/-- C9 amended: `Boss.on_death` first delegates to the base death handling
(kill-counter increment, then queue purge) and appends the final enrage stack
count to the hunter's enrage log afterwards, as the last external effect. -/
theorem C9_amended (b : Boss) (sim : Sim) :
    (b.on_death sim).2
      = [Effect.killInc, Effect.purgeEnemies, Effect.enrageAppend b.enrage_stacks] ∧
    (b.on_death sim).1.total_kills = sim.total_kills + 1 ∧
    (b.on_death sim).1.enrage_log = sim.enrage_log ++ [b.enrage_stacks] ∧
    (b.on_death sim).1.queue = (Enemy.on_death sim).1.queue := by
  refine ⟨rfl, rfl, rfl, rfl⟩

/-! ## C10 -/

/-- C10 counterexample: a killed unit with `regen = 5` but `max_hp = 1`
regenerates only to `min regen max_hp = 1`, not to `regen` — the claim's
"raises hp to regen" is false as stated. -/
theorem C10_counterexample :
    (0 : ℚ) < (⟨"E", 1, 1, 0, 5, 0, 0, 0, 0, 0, 0⟩ : Enemy).regen ∧
    ((⟨"E", 1, 1, 0, 5, 0, 0, 0, 0, 0, 0⟩ : Enemy).kill.regen_hp ⟨[], 0, []⟩).1.hp
      ≠ (⟨"E", 1, 1, 0, 5, 0, 0, 0, 0, 0, 0⟩ : Enemy).regen := by
  constructor
  · norm_num
  · simp only [Enemy.kill, Enemy.regen_hp, Enemy.heal_hp, Enemy.missing_hp, Enemy.is_dead]
    norm_num

/-- C10 amended: `kill` only zeroes hp (no death hook, queue and kill counter
untouched, all other fields unchanged), so a unit with positive regen and
positive max hp is revived by its next regen tick: hp rises to
`min regen max_hp > 0`, `is_dead` is false again, and no death processing
runs. -/
theorem Enemy.regen_hp_alive (e : Enemy) (sim : Sim)
    (h : (e.heal_hp e.regen "regen").is_dead = false) :
    e.regen_hp sim = (e.heal_hp e.regen "regen", sim) := by
  simp [Enemy.regen_hp, h]

theorem C10_amended (e : Enemy) (sim : Sim) (h1 : 0 < e.regen) (h2 : 0 < e.max_hp) :
    e.kill.hp = 0 ∧
    e.kill.is_dead = true ∧
    e.kill = { e with hp := 0 } ∧
    (e.kill.regen_hp sim).1.hp = min e.regen e.max_hp ∧
    0 < (e.kill.regen_hp sim).1.hp ∧
    (e.kill.regen_hp sim).1.is_dead = false ∧
    (e.kill.regen_hp sim).2 = sim := by
  have hhp : (e.kill.heal_hp e.kill.regen "regen").hp = min e.regen e.max_hp := by
    simp [Enemy.kill, Enemy.heal_hp, Enemy.missing_hp]
  have hpos : 0 < min e.regen e.max_hp := lt_min h1 h2
  have halive : (e.kill.heal_hp e.kill.regen "regen").is_dead = false := by
    simp only [Enemy.is_dead, decide_eq_false_iff_not, not_le, hhp]
    exact hpos
  have hre := Enemy.regen_hp_alive e.kill sim halive
  refine ⟨rfl, by simp [Enemy.kill, Enemy.is_dead], rfl, ?_, ?_, ?_, ?_⟩
  · rw [hre]; exact hhp
  · rw [hre]; simpa [hhp] using hpos
  · rw [hre]; exact halive
  · rw [hre]

/-- Witness for C10 amended at a concrete unit with regen 2 and max hp 10. -/
theorem C10_amended_witness :
    (0 : ℚ) < (⟨"E", 7, 10, 0, 2, 0, 0, 0, 0, 0, 0⟩ : Enemy).regen ∧
    (0 : ℚ) < (⟨"E", 7, 10, 0, 2, 0, 0, 0, 0, 0, 0⟩ : Enemy).max_hp ∧
    ((⟨"E", 7, 10, 0, 2, 0, 0, 0, 0, 0, 0⟩ : Enemy).kill.regen_hp ⟨[], 0, []⟩).1.is_dead = false ∧
    ((⟨"E", 7, 10, 0, 2, 0, 0, 0, 0, 0, 0⟩ : Enemy).kill.regen_hp ⟨[], 0, []⟩).2 = (⟨[], 0, []⟩ : Sim) :=
  ⟨by norm_num, by norm_num,
    (C10_amended _ ⟨[], 0, []⟩ (by norm_num) (by norm_num)).2.2.2.2.2.1,
    (C10_amended _ ⟨[], 0, []⟩ (by norm_num) (by norm_num)).2.2.2.2.2.2⟩

end HunterSim

namespace HunterSim

/-! ## C1 -/

theorem pyFloorDiv_zero (x y : ℚ) (h0 : 0 ≤ x) (hxy : x < y) :
    pyFloorDiv x y = 0 := by
  have hy : 0 < y := lt_of_le_of_lt h0 hxy
  simp only [pyFloorDiv]
  rw [Int.floor_eq_zero_iff.mpr ⟨div_nonneg h0 hy.le, (div_lt_one hy).mpr hxy⟩]
  rfl

theorem floorCoef_eq_zero (s : ℕ) (h1 : 150 ≤ s) (h2 : s ≤ 8483) :
    pyFloorDiv (0.006 * ((s : ℚ) - 150)) 50 = 0 := by
  have hc1 : (150 : ℚ) ≤ (s : ℚ) := by exact_mod_cast h1
  have hc2 : (s : ℚ) ≤ 8483 := by exact_mod_cast h2
  have h0 : (0 : ℚ) ≤ 0.006 * ((s : ℚ) - 150) / 50 := by
    apply div_nonneg _ (by norm_num)
    nlinarith
  have hlt : 0.006 * ((s : ℚ) - 150) / 50 < 1 := by
    rw [div_lt_one (by norm_num)]
    nlinarith
  simp only [pyFloorDiv]
  rw [Int.floor_eq_zero_iff.mpr ⟨h0, hlt⟩]
  rfl

/-- C1 counterexample: at stage 200 under the Borge variant, the generated
power does not match the spec's reading of the compounding coefficient as the
step function `0.006 + 0.006 * ((stage-150) // 50)` (which would re-steepen at
stage 200): the source's float floor division `(0.006 * (stage-150)) // 50`
is still 0 there, so the coefficient remains 0.006. -/
theorem C1_counterexample :
    (Enemy.fetch_stats Hunter.Borge 200).power ≠ specSteppedBorgePower 200 := by
  have h1 : pyFloorDiv (3/10 : ℚ) 50 = 0 := pyFloorDiv_zero _ _ (by norm_num) (by norm_num)
  simp only [Enemy.fetch_stats, specSteppedBorgePower]
  norm_num [h1]

/-- C1 amended: for both variants, hp, power and regen of regular enemies
follow the three-regime formula with exact boundaries — base polynomial for
stage ≤ 100, the fixed late-game multiplier engaging at stage 101 and not at
stage 100, and for stage ≥ 150 the compounding multiplier
`1 + (stage-149) * coef` (hp carrying the extra `stage // 150` factor), where
the coefficient is `0.006 + (0.006*(stage-150)) // 50`: by Python precedence
a float floor division that stays 0 for every stage up to 8483, so it does
not re-steepen every 50 stages.  The remaining stat fields carry no
compounding regime: special chance, special damage and speed are single
linear polynomials at every stage, damage reduction is constant 0, and evade
chance has only the two regimes 0 (stage ≤ 100) and a constant (stage > 100).
At stage 150 the Borge hp/power/regen equal the compounding formula at
coefficient 0.006, the value the claim's step 0 prescribes. -/
theorem C1_amended :
    (∀ s : ℕ, s ≤ 100 →
      (Enemy.fetch_stats Hunter.Borge s).hp = 9 + (s : ℚ) * 4 ∧
      (Enemy.fetch_stats Hunter.Borge s).power = 2.5 + (s : ℚ) * 0.7 ∧
      (Enemy.fetch_stats Hunter.Borge s).regen
        = (if 1 < s then ((s : ℚ) - 1) * 0.08 else 0) ∧
      (Enemy.fetch_stats Hunter.Ozzy s).hp = 11 + (s : ℚ) * 6 ∧
      (Enemy.fetch_stats Hunter.Ozzy s).power = 1.35 + (s : ℚ) * 0.75 ∧
      (Enemy.fetch_stats Hunter.Ozzy s).regen
        = (if 0 < s then 0.02 + ((s : ℚ) - 1) * 0.1 else 0)) ∧
    (∀ s : ℕ, 101 ≤ s → s ≤ 149 →
      (Enemy.fetch_stats Hunter.Borge s).hp = (9 + (s : ℚ) * 4) * 2.85 ∧
      (Enemy.fetch_stats Hunter.Borge s).power = (2.5 + (s : ℚ) * 0.7) * 2.85 ∧
      (Enemy.fetch_stats Hunter.Borge s).regen = ((s : ℚ) - 1) * 0.08 * 1.052 ∧
      (Enemy.fetch_stats Hunter.Ozzy s).hp = (11 + (s : ℚ) * 6) * 2.9 ∧
      (Enemy.fetch_stats Hunter.Ozzy s).power = (1.35 + (s : ℚ) * 0.75) * 2.7 ∧
      (Enemy.fetch_stats Hunter.Ozzy s).regen
        = (0.02 + ((s : ℚ) - 1) * 0.1) * 1.25) ∧
    ((Enemy.fetch_stats Hunter.Borge 100).power = 2.5 + 100 * 0.7) ∧
    ((Enemy.fetch_stats Hunter.Borge 101).power = (2.5 + 101 * 0.7) * 2.85) ∧
    ((Enemy.fetch_stats Hunter.Ozzy 100).power = 1.35 + 100 * 0.75) ∧
    ((Enemy.fetch_stats Hunter.Ozzy 101).power = (1.35 + 101 * 0.75) * 2.7) ∧
    (∀ s : ℕ, 150 ≤ s →
      (Enemy.fetch_stats Hunter.Borge s).hp
        = (9 + (s : ℚ) * 4) * 2.85
          * (1 + ((s / 150 : ℕ) : ℚ) * ((s : ℚ) - 149)
            * (0.006 + pyFloorDiv (0.006 * ((s : ℚ) - 150)) 50)) ∧
      (Enemy.fetch_stats Hunter.Borge s).power
        = (2.5 + (s : ℚ) * 0.7) * 2.85
          * (1 + ((s : ℚ) - 149)
            * (0.006 + pyFloorDiv (0.006 * ((s : ℚ) - 150)) 50)) ∧
      (Enemy.fetch_stats Hunter.Borge s).regen
        = ((s : ℚ) - 1) * 0.08 * 1.052
          * (1 + ((s : ℚ) - 149)
            * (0.006 + pyFloorDiv (0.006 * ((s : ℚ) - 150)) 50)) ∧
      (Enemy.fetch_stats Hunter.Ozzy s).hp
        = (11 + (s : ℚ) * 6) * 2.9
          * (1 + ((s / 150 : ℕ) : ℚ) * ((s : ℚ) - 149)
            * (0.006 + pyFloorDiv (0.006 * ((s : ℚ) - 150)) 50)) ∧
      (Enemy.fetch_stats Hunter.Ozzy s).power
        = (1.35 + (s : ℚ) * 0.75) * 2.7
          * (1 + ((s : ℚ) - 149)
            * (0.006 + pyFloorDiv (0.006 * ((s : ℚ) - 150)) 50)) ∧
      (Enemy.fetch_stats Hunter.Ozzy s).regen
        = (0.02 + ((s : ℚ) - 1) * 0.1) * 1.25
          * (1 + ((s : ℚ) - 149)
            * (0.006 + pyFloorDiv (0.006 * ((s : ℚ) - 150)) 50))) ∧
    (∀ s : ℕ, 150 ≤ s → s ≤ 8483 →
      (0.006 : ℚ) + pyFloorDiv (0.006 * ((s : ℚ) - 150)) 50 = 0.006) ∧
    (∀ s : ℕ, 150 ≤ s → s ≤ 8483 →
      (Enemy.fetch_stats Hunter.Borge s).hp
        = (9 + (s : ℚ) * 4) * 2.85
          * (1 + ((s / 150 : ℕ) : ℚ) * ((s : ℚ) - 149) * 0.006) ∧
      (Enemy.fetch_stats Hunter.Borge s).power
        = (2.5 + (s : ℚ) * 0.7) * 2.85 * (1 + ((s : ℚ) - 149) * 0.006) ∧
      (Enemy.fetch_stats Hunter.Borge s).regen
        = ((s : ℚ) - 1) * 0.08 * 1.052 * (1 + ((s : ℚ) - 149) * 0.006) ∧
      (Enemy.fetch_stats Hunter.Ozzy s).hp
        = (11 + (s : ℚ) * 6) * 2.9
          * (1 + ((s / 150 : ℕ) : ℚ) * ((s : ℚ) - 149) * 0.006) ∧
      (Enemy.fetch_stats Hunter.Ozzy s).power
        = (1.35 + (s : ℚ) * 0.75) * 2.7 * (1 + ((s : ℚ) - 149) * 0.006) ∧
      (Enemy.fetch_stats Hunter.Ozzy s).regen
        = (0.02 + ((s : ℚ) - 1) * 0.1) * 1.25
          * (1 + ((s : ℚ) - 149) * 0.006)) ∧
    (∀ s : ℕ,
      (Enemy.fetch_stats Hunter.Borge s).special_chance
        = 0.0322 + (s : ℚ) * 0.0004 ∧
      (Enemy.fetch_stats Hunter.Borge s).special_damage
        = 1.21 + (s : ℚ) * 0.008025 ∧
      (Enemy.fetch_stats Hunter.Borge s).damage_reduction = 0 ∧
      (Enemy.fetch_stats Hunter.Borge s).evade_chance
        = (if 100 < s then 0.004 else 0) ∧
      (Enemy.fetch_stats Hunter.Borge s).speed = 4.53 - (s : ℚ) * 0.006 ∧
      (Enemy.fetch_stats Hunter.Ozzy s).special_chance
        = 0.0994 + (s : ℚ) * 0.0006 ∧
      (Enemy.fetch_stats Hunter.Ozzy s).special_damage
        = 1.03 + (s : ℚ) * 0.008 ∧
      (Enemy.fetch_stats Hunter.Ozzy s).damage_reduction = 0 ∧
      (Enemy.fetch_stats Hunter.Ozzy s).evade_chance
        = (if 100 < s then 0.01 else 0) ∧
      (Enemy.fetch_stats Hunter.Ozzy s).speed = 3.20 - (s : ℚ) * 0.004) ∧
    ((Enemy.fetch_stats Hunter.Borge 150).hp
        = (9 + 150 * 4) * 2.85 * (1 + 1 * ((150 : ℚ) - 149) * 0.006) ∧
     (Enemy.fetch_stats Hunter.Borge 150).power
        = (2.5 + 150 * 0.7) * 2.85 * (1 + ((150 : ℚ) - 149) * 0.006) ∧
     (Enemy.fetch_stats Hunter.Borge 150).regen
        = ((150 : ℚ) - 1) * 0.08 * 1.052 * (1 + ((150 : ℚ) - 149) * 0.006)) := by
  have hz150 := floorCoef_eq_zero 150 (by norm_num) (by norm_num)
  refine ⟨?_, ?_, ?_, ?_, ?_, ?_, ?_, ?_, ?_, ?_, ?_⟩
  · intro s hs
    have hn1 : ¬ (100 < s) := by omega
    have hn2 : ¬ (150 ≤ s) := by omega
    refine ⟨?_, ?_, ?_, ?_, ?_, ?_⟩ <;>
      simp [Enemy.fetch_stats, hn1, hn2] <;> split <;> norm_num
  · intro s hs1 hs2
    have hp1 : 100 < s := by omega
    have hn2 : ¬ (150 ≤ s) := by omega
    have hr : 1 < s := by omega
    have h0 : 0 < s := by omega
    refine ⟨?_, ?_, ?_, ?_, ?_, ?_⟩ <;>
      simp [Enemy.fetch_stats, hp1, hn2, hr, h0] <;> ring_nf <;> tauto
  · simp [Enemy.fetch_stats]
  · norm_num [Enemy.fetch_stats]
  · simp [Enemy.fetch_stats]
  · norm_num [Enemy.fetch_stats]
  · intro s hs
    have hp1 : 100 < s := by omega
    have hp2 : 150 ≤ s := by omega
    have hr : 1 < s := by omega
    have h0 : 0 < s := by omega
    refine ⟨?_, ?_, ?_, ?_, ?_, ?_⟩ <;>
      simp [Enemy.fetch_stats, hp1, hp2, hr, h0] <;> ring_nf <;> tauto
  · intro s hs1 hs2
    rw [floorCoef_eq_zero s hs1 hs2]
    norm_num
  · intro s hs1 hs2
    have hp1 : 100 < s := by omega
    have hp2 : 150 ≤ s := by omega
    have hr : 1 < s := by omega
    have h0 : 0 < s := by omega
    have hz := floorCoef_eq_zero s hp2 hs2
    refine ⟨?_, ?_, ?_, ?_, ?_, ?_⟩ <;>
      simp [Enemy.fetch_stats, hp1, hp2, hr, h0, hz] <;> ring_nf <;> tauto
  · intro s
    refine ⟨?_, ?_, ?_, ?_, ?_, ?_, ?_, ?_, ?_, ?_⟩ <;>
      simp [Enemy.fetch_stats]
  · norm_num [Enemy.fetch_stats, hz150, pyFloorDiv_zero 0 50 le_rfl (by norm_num)]

/-- Witness for C1 amended at stages 50, 120, 200 and 7. -/
theorem C1_amended_witness :
    (50 : ℕ) ≤ 100 ∧ (101 : ℕ) ≤ 120 ∧ (120 : ℕ) ≤ 149 ∧
    (150 : ℕ) ≤ 200 ∧ (200 : ℕ) ≤ 8483 ∧
    (Enemy.fetch_stats Hunter.Borge 50).power = 2.5 + (50 : ℚ) * 0.7 ∧
    (Enemy.fetch_stats Hunter.Ozzy 50).hp = 11 + (50 : ℚ) * 6 ∧
    (Enemy.fetch_stats Hunter.Ozzy 120).regen
      = (0.02 + ((120 : ℚ) - 1) * 0.1) * 1.25 ∧
    ((0.006 : ℚ) + pyFloorDiv (0.006 * ((200 : ℚ) - 150)) 50 = 0.006) ∧
    (Enemy.fetch_stats Hunter.Borge 200).power
      = (2.5 + (200 : ℚ) * 0.7) * 2.85 * (1 + ((200 : ℚ) - 149) * 0.006) ∧
    (Enemy.fetch_stats Hunter.Ozzy 200).hp
      = (11 + (200 : ℚ) * 6) * 2.9
        * (1 + ((200 / 150 : ℕ) : ℚ) * ((200 : ℚ) - 149) * 0.006) ∧
    (Enemy.fetch_stats Hunter.Borge 7).special_chance
      = 0.0322 + (7 : ℚ) * 0.0004 :=
  ⟨by norm_num, by norm_num, by norm_num, by norm_num, by norm_num,
    (C1_amended.1 50 (by norm_num)).2.1,
    (C1_amended.1 50 (by norm_num)).2.2.2.1,
    (C1_amended.2.1 120 (by norm_num) (by norm_num)).2.2.2.2.2,
    C1_amended.2.2.2.2.2.2.2.1 200 (by norm_num) (by norm_num),
    (C1_amended.2.2.2.2.2.2.2.2.1 200 (by norm_num) (by norm_num)).2.1,
    (C1_amended.2.2.2.2.2.2.2.2.1 200 (by norm_num) (by norm_num)).2.2.2.1,
    (C1_amended.2.2.2.2.2.2.2.2.2.1 7).1⟩

end HunterSim

namespace HunterSim

/-! ## Order lemmas for the Python tuple comparison -/

theorem entryLtb_iff {a b : Entry} :
    entryLtb a b = true ↔
      (a.time < b.time ∨ (a.time = b.time ∧
        (a.tie < b.tie ∨ (a.tie = b.tie ∧ a.kind < b.kind)))) := by
  simp [entryLtb]

theorem entryLtb_irrefl (a : Entry) : entryLtb a a = false := by
  simp [entryLtb]

theorem entryLtb_trans {a b c : Entry} (h1 : entryLtb a b = true)
    (h2 : entryLtb b c = true) : entryLtb a c = true := by
  rw [entryLtb_iff] at h1 h2 ⊢
  rcases h1 with h1 | ⟨he1, h1⟩
  · rcases h2 with h2 | ⟨he2, h2⟩
    · exact Or.inl (lt_trans h1 h2)
    · exact Or.inl (he2 ▸ h1)
  · rcases h2 with h2 | ⟨he2, h2⟩
    · exact Or.inl (he1 ▸ h2)
    · refine Or.inr ⟨he1.trans he2, ?_⟩
      rcases h1 with h1 | ⟨ht1, h1⟩
      · rcases h2 with h2 | ⟨ht2, h2⟩
        · exact Or.inl (lt_trans h1 h2)
        · exact Or.inl (ht2 ▸ h1)
      · rcases h2 with h2 | ⟨ht2, h2⟩
        · exact Or.inl (ht1 ▸ h2)
        · exact Or.inr ⟨ht1.trans ht2, lt_trans h1 h2⟩

theorem entryLtb_asymm {a b : Entry} (h : entryLtb a b = true) :
    entryLtb b a = false := by
  by_contra hc
  rw [Bool.not_eq_false] at hc
  have := entryLtb_trans h hc
  rw [entryLtb_irrefl] at this
  exact Bool.false_ne_true this

theorem Entry.ext3 {a b : Entry} (h1 : a.time = b.time) (h2 : a.tie = b.tie)
    (h3 : a.kind = b.kind) : a = b := by
  obtain ⟨x1, x2, x3⟩ := a
  obtain ⟨y1, y2, y3⟩ := b
  simp_all

theorem entryLtb_total {a b : Entry} (h : entryLtb a b = false) :
    entryLtb b a = true ∨ a = b := by
  have h' : ¬(a.time < b.time ∨ (a.time = b.time ∧
      (a.tie < b.tie ∨ (a.tie = b.tie ∧ a.kind < b.kind)))) := by
    rw [← entryLtb_iff]
    simp [h]
  push_neg at h'
  rw [entryLtb_iff]
  obtain ⟨h1, h2⟩ := h'
  rcases lt_trichotomy b.time a.time with ht | ht | ht
  · exact Or.inl (Or.inl ht)
  · obtain ⟨h3, h4⟩ := h2 ht.symm
    rcases lt_trichotomy b.tie a.tie with hi | hi | hi
    · exact Or.inl (Or.inr ⟨ht, Or.inl hi⟩)
    · have h4' := h4 hi.symm
      rcases lt_trichotomy b.kind a.kind with hk | hk | hk
      · exact Or.inl (Or.inr ⟨ht, Or.inr ⟨hi, hk⟩⟩)
      · exact Or.inr (Entry.ext3 ht.symm hi.symm hk.symm)
      · exact absurd hk (not_lt.mpr h4')
    · exact absurd hi (not_lt.mpr h3)
  · exact absurd ht (not_lt.mpr h1)

theorem nlt_trans {a b c : Entry} (h1 : entryLtb b a = false)
    (h2 : entryLtb c b = false) : entryLtb c a = false := by
  by_contra hc
  rw [Bool.not_eq_false] at hc
  rcases entryLtb_total h1 with hba | hba
  · rcases entryLtb_total h2 with hcb | hcb
    · have := entryLtb_trans (entryLtb_trans hc hba) hcb
      rw [entryLtb_irrefl] at this
      exact Bool.false_ne_true this
    · subst hcb
      have := entryLtb_trans hc hba
      rw [entryLtb_irrefl] at this
      exact Bool.false_ne_true this
  · subst hba
    rcases entryLtb_total h2 with hcb | hcb
    · have := entryLtb_trans hc hcb
      rw [entryLtb_irrefl] at this
      exact Bool.false_ne_true this
    · subst hcb
      rw [entryLtb_irrefl] at hc
      exact Bool.false_ne_true hc

theorem nlt_of_nlt_of_lt {s p n : Entry} (hs : entryLtb s p = false)
    (hn : entryLtb n p = true) : entryLtb s n = false := by
  cases hsn : entryLtb s n with
  | false => rfl
  | true => exact absurd (entryLtb_trans hsn hn) (by simp [hs])

end HunterSim

namespace HunterSim.heapq

open HunterSim

/-! ## get/set lemmas -/

theorem get_set_eq (l : List Entry) (i : ℕ) (x : Entry) (h : i < l.length) :
    get (l.set i x) i = x := by
  simp [get, List.getD_eq_getElem?_getD, List.getElem?_set_self', h]

theorem get_set_ne (l : List Entry) {i j : ℕ} (x : Entry) (h : i ≠ j) :
    get (l.set i x) j = get l j := by
  simp [get, List.getD_eq_getElem?_getD, List.getElem?_set_ne h]

theorem set_get_self (l : List Entry) : ∀ i, i < l.length → l.set i (get l i) = l := by
  induction l with
  | nil => intro i h; simp at h
  | cons a t ih =>
      intro i h
      cases i with
      | zero => simp [get]
      | succ j =>
          simp only [List.set_cons_succ, get, List.getD_cons_succ]
          exact congrArg (a :: ·) (ih j (by simpa using h))

/-! ## Permutation infrastructure -/

theorem perm_cons_set (t : List Entry) : ∀ (j : ℕ) (x : Entry), j < t.length →
    (get t j :: t.set j x).Perm (x :: t) := by
  induction t with
  | nil => intro j x h; simp at h
  | cons b t' ih =>
      intro j x h
      cases j with
      | zero => simpa [get] using List.Perm.swap x b t'
      | succ j' =>
          simp only [get, List.getD_cons_succ, List.set_cons_succ]
          exact (List.Perm.swap b (t'.getD j' dEntry) (t'.set j' x)).trans
            (((ih j' x (by simpa using h)).cons b).trans (List.Perm.swap x b t'))

theorem perm_set_set (t : List Entry) : ∀ (i : ℕ) (a x : Entry), i < t.length →
    (x :: t.set i a).Perm (a :: t.set i x) := by
  induction t with
  | nil => intro i a x h; simp at h
  | cons b t' ih =>
      intro i a x h
      cases i with
      | zero => simpa using List.Perm.swap a x t'
      | succ i' =>
          simp only [List.set_cons_succ]
          exact (List.Perm.swap b x (t'.set i' a)).trans
            (((ih i' a x (by simpa using h)).cons b).trans
              (List.Perm.swap a b (t'.set i' x)))

theorem set_set_perm (l : List Entry) : ∀ (i j : ℕ) (x : Entry),
    i < l.length → j < l.length → i ≠ j →
    ((l.set i (get l j)).set j x).Perm (l.set i x) := by
  induction l with
  | nil => intro i j x hi hj hij; simp at hi
  | cons a t ih =>
      intro i j x hi hj hij
      cases i with
      | zero =>
          cases j with
          | zero => exact absurd rfl hij
          | succ j' =>
              simp only [List.set_cons_zero, List.set_cons_succ, get,
                List.getD_cons_succ]
              exact perm_cons_set t j' x (by simpa using hj)
      | succ i' =>
          cases j with
          | zero =>
              simp only [List.set_cons_succ, List.set_cons_zero, get,
                List.getD_cons_zero]
              exact perm_set_set t i' a x (by simpa using hi)
          | succ j' =>
              simp only [List.set_cons_succ, get, List.getD_cons_succ]
              exact (ih i' j' x (by simpa using hi) (by simpa using hj)
                (by omega)).cons a

end HunterSim.heapq

namespace HunterSim.heapq

open HunterSim

/-! ## Child selection facts -/

theorem child_cases (l : List Entry) (pos : ℕ) :
    child l pos = 2 * pos + 1 ∨ child l pos = 2 * pos + 2 := by
  unfold child
  split
  · exact Or.inr rfl
  · exact Or.inl rfl

theorem child_lt_length (l : List Entry) (pos : ℕ) (h : 2 * pos + 1 < l.length) :
    child l pos < l.length := by
  unfold child
  split
  · omega
  · exact h

theorem pos_lt_child (l : List Entry) (pos : ℕ) : pos < child l pos := by
  rcases child_cases l pos with h | h <;> omega

theorem par_child (l : List Entry) (pos : ℕ) : (child l pos - 1) / 2 = pos := by
  rcases child_cases l pos with h | h <;> omega

theorem child_min (l : List Entry) (pos : ℕ) (h : 2 * pos + 1 < l.length) :
    ∀ c, (c = 2 * pos + 1 ∨ c = 2 * pos + 2) → c < l.length →
      entryLtb (get l c) (get l (child l pos)) = false := by
  intro c hc hcl
  unfold child
  split
  case isTrue hsel =>
    rcases hc with rfl | rfl
    · exact hsel.2
    · exact entryLtb_irrefl _
  case isFalse hsel =>
    rcases hc with rfl | rfl
    · exact entryLtb_irrefl _
    · have h1 : entryLtb (get l (2 * pos + 1)) (get l (2 * pos + 2)) = true := by
        by_contra hb
        rw [Bool.not_eq_true] at hb
        exact hsel ⟨hcl, hb⟩
      exact entryLtb_asymm h1

/-! ## Length and bound lemmas -/

theorem siftdownLoop_length (newitem : Entry) :
    ∀ pos (l : List Entry) (s : ℕ),
      (siftdownLoop newitem l s pos).1.length = l.length := by
  intro pos
  induction pos using Nat.strong_induction_on with
  | _ pos ih =>
    intro l s
    rw [siftdownLoop]
    by_cases h1 : s < pos
    · rw [dif_pos h1]
      cases h2 : entryLtb newitem (get l ((pos - 1) / 2)) with
      | false => simp [h2]
      | true =>
          simp only [h2, if_true]
          rw [ih ((pos - 1) / 2) (by omega)]
          simp
    · rw [dif_neg h1]

theorem siftdown_length (l : List Entry) (s pos : ℕ) :
    (siftdown l s pos).length = l.length := by
  unfold siftdown
  simp [siftdownLoop_length]

/-! ## Permutation of the sift loops -/

theorem siftdownLoop_perm (newitem : Entry) :
    ∀ pos (l : List Entry) (s : ℕ), pos < l.length →
      ((siftdownLoop newitem l s pos).1.set (siftdownLoop newitem l s pos).2
        newitem).Perm (l.set pos newitem) := by
  intro pos
  induction pos using Nat.strong_induction_on with
  | _ pos ih =>
    intro l s hlt
    rw [siftdownLoop]
    by_cases h1 : s < pos
    · rw [dif_pos h1]
      cases h2 : entryLtb newitem (get l ((pos - 1) / 2)) with
      | false => simp [h2]
      | true =>
          simp only [h2, if_true]
          have hpar : (pos - 1) / 2 < pos := by omega
          have hrec := ih ((pos - 1) / 2) hpar (l.set pos (get l ((pos - 1) / 2))) s
            (by simp; omega)
          exact hrec.trans
            (set_set_perm l pos ((pos - 1) / 2) newitem hlt (by omega) (by omega))
    · rw [dif_neg h1]

theorem siftdown_perm (l : List Entry) (s pos : ℕ) (h : pos < l.length) :
    (siftdown l s pos).Perm l := by
  unfold siftdown
  have hp := siftdownLoop_perm (get l pos) pos l s h
  rw [set_get_self l pos h] at hp
  exact hp

theorem heappush_perm (l : List Entry) (item : Entry) :
    (heappush l item).Perm (l ++ [item]) := by
  unfold heappush
  exact siftdown_perm _ 0 l.length (by simp)

theorem siftupLoop_spec :
    ∀ (k : ℕ) (l : List Entry) (pos : ℕ), l.length - pos = k → pos < l.length →
      (siftupLoop l pos).1.length = l.length ∧
      pos ≤ (siftupLoop l pos).2 ∧
      (siftupLoop l pos).2 < l.length ∧
      ∀ x, ((siftupLoop l pos).1.set (siftupLoop l pos).2 x).Perm (l.set pos x) := by
  intro k
  induction k using Nat.strong_induction_on with
  | _ k ih =>
    intro l pos hk hlt
    rw [siftupLoop]
    by_cases h1 : 2 * pos + 1 < l.length
    · rw [dif_pos h1]
      have hclt : child l pos < l.length := child_lt_length l pos h1
      have hpc : pos < child l pos := pos_lt_child l pos
      have hrec := ih ((l.set pos (get l (child l pos))).length - child l pos)
        (by simp; omega) (l.set pos (get l (child l pos))) (child l pos) rfl
        (by simp; omega)
      simp only [List.length_set] at hrec
      refine ⟨hrec.1, by omega, by omega, fun x => ?_⟩
      exact (hrec.2.2.2 x).trans
        (set_set_perm l pos (child l pos) x hlt hclt (by omega))
    · rw [dif_neg h1]
      exact ⟨rfl, le_refl _, hlt, fun x => List.Perm.refl _⟩

theorem siftup_length (l : List Entry) (pos : ℕ) (h : pos < l.length) :
    (siftup l pos).length = l.length := by
  unfold siftup
  have hs := siftupLoop_spec (l.length - pos) l pos rfl h
  rw [siftdown_length]
  simp [hs.1]

theorem siftup_perm (l : List Entry) (pos : ℕ) (h : pos < l.length) :
    (siftup l pos).Perm l := by
  unfold siftup
  have hs := siftupLoop_spec (l.length - pos) l pos rfl h
  have hperm := hs.2.2.2 (get l pos)
  rw [set_get_self l pos h] at hperm
  have hd : (siftdown ((siftupLoop l pos).1.set (siftupLoop l pos).2 (get l pos))
      pos (siftupLoop l pos).2).Perm
      ((siftupLoop l pos).1.set (siftupLoop l pos).2 (get l pos)) := by
    apply siftdown_perm
    simp [hs.1]
    omega
  exact hd.trans hperm

theorem heapifyAux_perm : ∀ (k : ℕ) (l : List Entry), 2 * k ≤ l.length →
    (heapifyAux l k).Perm l := by
  intro k
  induction k with
  | zero => intro l _; exact List.Perm.refl _
  | succ k ih =>
      intro l hk
      have hlt : k < l.length := by omega
      have h1 : (heapifyAux (siftup l k) k).Perm (siftup l k) := by
        apply ih
        rw [siftup_length l k hlt]
        omega
      exact h1.trans (siftup_perm l k hlt)

theorem heapify_perm (l : List Entry) : (heapify l).Perm l := by
  unfold heapify
  exact heapifyAux_perm (l.length / 2) l (by omega)

end HunterSim.heapq

namespace HunterSim.heapq

open HunterSim

/-! ## Subtree reachability -/

theorem parIter_le : ∀ (d q : ℕ), parIter d q ≤ q := by
  intro d
  induction d with
  | zero => intro q; exact le_refl q
  | succ d ih =>
      intro q
      exact le_trans (ih ((q - 1) / 2)) (by omega)

theorem reach_par {pos i : ℕ} (h : ∃ d, parIter d pos = i) (hlt : i < pos) :
    i ≤ (pos - 1) / 2 ∧ ∃ d, parIter d ((pos - 1) / 2) = i := by
  obtain ⟨d, hd⟩ := h
  cases d with
  | zero =>
      simp only [parIter] at hd
      omega
  | succ d' =>
      have hd' : parIter d' ((pos - 1) / 2) = i := hd
      exact ⟨hd' ▸ parIter_le d' _, ⟨d', hd'⟩⟩

/-! ## The ascent: `_siftdown` called at the leaf hole left by `_siftup` -/

theorem ascend (i : ℕ) (newitem : Entry) :
    ∀ pos (B : List Entry),
      pos < B.length → i ≤ pos →
      (∃ d, parIter d pos = i) →
      (∀ j, 0 < j → j < B.length → i ≤ (j - 1) / 2 → j ≠ pos →
        entryLtb (get (B.set pos newitem) j)
          (get (B.set pos newitem) ((j - 1) / 2)) = false) →
      (i < pos → ∀ j, 0 < j → j < B.length → (j - 1) / 2 = pos →
        entryLtb (get B j) (get B ((pos - 1) / 2)) = false) →
      HeapFrom i ((siftdownLoop newitem B i pos).1.set
        (siftdownLoop newitem B i pos).2 newitem) := by
  intro pos
  induction pos using Nat.strong_induction_on with
  | _ pos ih =>
    intro B hlen hip hreach hex hlow
    rw [siftdownLoop]
    by_cases h1 : i < pos
    · rw [dif_pos h1]
      obtain ⟨hipp, hreach'⟩ := reach_par hreach h1
      have hpplt : (pos - 1) / 2 < pos := by omega
      cases h2 : entryLtb newitem (get B ((pos - 1) / 2)) with
      | false =>
          rw [if_neg (by simp)]
          dsimp only
          intro j hj0 hjlen hreg
          simp only [List.length_set] at hjlen
          by_cases hjpos : j = pos
          · subst hjpos
            rw [get_set_eq B j newitem hlen,
              get_set_ne B newitem (by omega : j ≠ (j - 1) / 2)]
            exact h2
          · exact hex j hj0 hjlen hreg hjpos
      | true =>
          rw [if_pos rfl]
          have hpp0 : 0 < pos := by omega
          have hpplen : (pos - 1) / 2 < B.length := by omega
          -- value views of the new configuration
          have hB1len : (B.set pos (get B ((pos - 1) / 2))).length = B.length := by
            simp
          apply ih ((pos - 1) / 2) hpplt _ (by omega) hipp hreach'
          · -- ordered edges of the new configuration, except the edge into the
            -- new hole
            intro j hj0 hjlen hreg hjpp
            rw [hB1len] at hjlen
            have hvpos : get ((B.set pos (get B ((pos - 1) / 2))).set
                ((pos - 1) / 2) newitem) pos = get B ((pos - 1) / 2) := by
              rw [get_set_ne _ newitem (by omega : (pos - 1) / 2 ≠ pos),
                get_set_eq B pos (get B ((pos - 1) / 2)) hlen]
            have hvpp : get ((B.set pos (get B ((pos - 1) / 2))).set
                ((pos - 1) / 2) newitem) ((pos - 1) / 2) = newitem := by
              rw [get_set_eq _ _ newitem (by simp; omega)]
            by_cases hjpos : j = pos
            · subst hjpos
              rw [hvpos, (by omega : (j - 1) / 2 = (j - 1) / 2)]
              rw [hvpp]
              exact entryLtb_asymm h2
            · have hvj : get ((B.set pos (get B ((pos - 1) / 2))).set
                  ((pos - 1) / 2) newitem) j = get B j := by
                rw [get_set_ne _ newitem (fun hc => hjpp hc.symm),
                  get_set_ne B _ (fun hc => hjpos hc.symm)]
              by_cases hpj : (j - 1) / 2 = pos
              · rw [hvj, hpj, hvpos]
                exact hlow h1 j hj0 hjlen hpj
              · by_cases hpj2 : (j - 1) / 2 = (pos - 1) / 2
                · rw [hvj, hpj2, hvpp]
                  have hs := hex j hj0 hjlen (by omega) hjpos
                  rw [get_set_ne B newitem (fun hc => hjpos hc.symm), hpj2,
                    get_set_ne B newitem (by omega : pos ≠ (pos - 1) / 2)] at hs
                  exact nlt_of_nlt_of_lt hs h2
                · have hvpj : get ((B.set pos (get B ((pos - 1) / 2))).set
                      ((pos - 1) / 2) newitem) ((j - 1) / 2)
                      = get B ((j - 1) / 2) := by
                    rw [get_set_ne _ newitem (fun hc => hpj2 hc.symm),
                      get_set_ne B _ (fun hc => hpj hc.symm)]
                  rw [hvj, hvpj]
                  have hs := hex j hj0 hjlen hreg hjpos
                  rw [get_set_ne B newitem (fun hc => hjpos hc.symm),
                    get_set_ne B newitem (fun hc => hpj hc.symm)] at hs
                  exact hs
          · -- children of the new hole fit below its parent
            intro hipp' j hj0 hjlen hpj
            rw [hB1len] at hjlen
            have hpp1 : 1 ≤ (pos - 1) / 2 := by omega
            have hgp := reach_par hreach' hipp'
            have hgplt : ((pos - 1) / 2 - 1) / 2 < (pos - 1) / 2 := by omega
            have hvgp : get (B.set pos (get B ((pos - 1) / 2)))
                (((pos - 1) / 2 - 1) / 2) = get B (((pos - 1) / 2 - 1) / 2) := by
              rw [get_set_ne B _ (by omega : pos ≠ ((pos - 1) / 2 - 1) / 2)]
            have hppgp : entryLtb (get B ((pos - 1) / 2))
                (get B (((pos - 1) / 2 - 1) / 2)) = false := by
              have hs := hex ((pos - 1) / 2) (by omega) hpplen (hgp.1) (by omega)
              rw [get_set_ne B newitem (by omega : pos ≠ (pos - 1) / 2),
                get_set_ne B newitem (by omega : pos ≠ ((pos - 1) / 2 - 1) / 2)]
                at hs
              exact hs
            by_cases hjpos : j = pos
            · subst hjpos
              rw [get_set_eq B j (get B ((j - 1) / 2)) hlen, hvgp]
              exact hppgp
            · rw [get_set_ne B _ (fun hc => hjpos hc.symm), hvgp]
              have hjpp : entryLtb (get B j) (get B ((pos - 1) / 2)) = false := by
                have hs := hex j hj0 hjlen (by omega) hjpos
                rw [get_set_ne B newitem (fun hc => hjpos hc.symm), hpj,
                  get_set_ne B newitem (by omega : pos ≠ (pos - 1) / 2)] at hs
                exact hs
              exact nlt_trans hppgp hjpp
    · rw [dif_neg h1]
      dsimp only
      intro j hj0 hjlen hreg
      simp only [List.length_set] at hjlen
      by_cases hjpos : j = pos
      · exact absurd hreg (by omega)
      · exact hex j hj0 hjlen hreg hjpos

end HunterSim.heapq

namespace HunterSim.heapq

open HunterSim

/-! ## The descent: the `_siftup` loop sinks the hole to a leaf -/

theorem descend (i : ℕ) :
    ∀ (k : ℕ) (l : List Entry) (pos : ℕ), l.length - pos = k →
      pos < l.length → i ≤ pos →
      (∃ d, parIter d pos = i) →
      (∀ j, 0 < j → j < l.length → i ≤ (j - 1) / 2 → j ≠ pos →
        (j - 1) / 2 ≠ pos →
        entryLtb (get l j) (get l ((j - 1) / 2)) = false) →
      (i < pos → ∀ j, 0 < j → j < l.length → (j - 1) / 2 = pos →
        entryLtb (get l j) (get l ((pos - 1) / 2)) = false) →
      i ≤ (siftupLoop l pos).2 ∧
      (siftupLoop l pos).2 < l.length ∧
      (∃ d, parIter d (siftupLoop l pos).2 = i) ∧
      l.length ≤ 2 * (siftupLoop l pos).2 + 1 ∧
      (∀ j, 0 < j → j < l.length → i ≤ (j - 1) / 2 → j ≠ (siftupLoop l pos).2 →
        (j - 1) / 2 ≠ (siftupLoop l pos).2 →
        entryLtb (get (siftupLoop l pos).1 j)
          (get (siftupLoop l pos).1 ((j - 1) / 2)) = false) := by
  intro k
  induction k using Nat.strong_induction_on with
  | _ k ih =>
    intro l pos hk hlt hip hreach hheap hlow
    rw [siftupLoop]
    by_cases h1 : 2 * pos + 1 < l.length
    · rw [dif_pos h1]
      have hclt : child l pos < l.length := child_lt_length l pos h1
      have hpc : pos < child l pos := pos_lt_child l pos
      have hparc : (child l pos - 1) / 2 = pos := par_child l pos
      have hccases := child_cases l pos
      have hreach2 : ∃ d, parIter d (child l pos) = i := by
        obtain ⟨d, hd⟩ := hreach
        refine ⟨d + 1, ?_⟩
        show parIter d ((child l pos - 1) / 2) = i
        rw [hparc]
        exact hd
      have hres := ih (l.length - child l pos) (by omega)
        (l.set pos (get l (child l pos))) (child l pos) (by simp)
        (by simp; omega) (by omega) hreach2 ?_ ?_
      · simp only [List.length_set] at hres
        exact hres
      · -- ordered edges away from the new hole, in the shifted array
        intro j hj0 hjlen hreg hjc hpjc
        simp only [List.length_set] at hjlen
        by_cases hjpos : j = pos
        · subst hjpos
          rw [get_set_eq l j (get l (child l j)) hlt,
            get_set_ne l _ (by omega : j ≠ (j - 1) / 2)]
          have hi_lt : i < j := by
            rcases Nat.eq_or_lt_of_le hip with hie | hie
            · exact absurd hreg (by omega)
            · exact hie
          exact hlow hi_lt (child l j) (by omega) hclt hparc
        · by_cases hpj : (j - 1) / 2 = pos
          · rw [get_set_ne l _ (fun hc => hjpos hc.symm), hpj,
              get_set_eq l pos (get l (child l pos)) hlt]
            exact child_min l pos h1 j (by omega) hjlen
          · rw [get_set_ne l _ (fun hc => hjpos hc.symm),
              get_set_ne l _ (fun hc => hpj hc.symm)]
            exact hheap j hj0 hjlen hreg hjpos hpj
      · -- children of the new hole fit below its parent (the old hole, now
        -- holding the promoted child)
        intro _ j hj0 hjlen hpj
        simp only [List.length_set] at hjlen
        have hjc : pos < j := by omega
        rw [get_set_ne l _ (by omega : pos ≠ j), hparc,
          get_set_eq l pos (get l (child l pos)) hlt]
        have hh := hheap j hj0 hjlen (by omega) (by omega) (by omega)
        rw [hpj] at hh
        exact hh
    · rw [dif_neg h1]
      dsimp only
      exact ⟨hip, hlt, hreach, by omega, hheap⟩

/-! ## `_siftup` extends the ordered region by one node -/

theorem siftup_heapFrom (l : List Entry) (i : ℕ) (hi : i < l.length)
    (H : HeapFrom (i + 1) l) : HeapFrom i (siftup l i) := by
  have hspec := siftupLoop_spec (l.length - i) l i rfl hi
  have hdes := descend i (l.length - i) l i rfl hi (le_refl i) ⟨0, rfl⟩
    (fun j hj0 hjlen hreg hjne hpne => H j hj0 hjlen (by omega))
    (fun hii => absurd hii (lt_irrefl i))
  obtain ⟨hir2, hr2len, hreach2, hleaf, hheap2⟩ := hdes
  have hsu : siftup l i = siftdown ((siftupLoop l i).1.set (siftupLoop l i).2
      (get l i)) i (siftupLoop l i).2 := rfl
  have hsd : siftdown ((siftupLoop l i).1.set (siftupLoop l i).2 (get l i)) i
      (siftupLoop l i).2
      = (siftdownLoop (get ((siftupLoop l i).1.set (siftupLoop l i).2 (get l i))
          (siftupLoop l i).2) ((siftupLoop l i).1.set (siftupLoop l i).2
          (get l i)) i (siftupLoop l i).2).1.set
        (siftdownLoop (get ((siftupLoop l i).1.set (siftupLoop l i).2 (get l i))
          (siftupLoop l i).2) ((siftupLoop l i).1.set (siftupLoop l i).2
          (get l i)) i (siftupLoop l i).2).2
        (get ((siftupLoop l i).1.set (siftupLoop l i).2 (get l i))
          (siftupLoop l i).2) := rfl
  have hgB : get ((siftupLoop l i).1.set (siftupLoop l i).2 (get l i))
      (siftupLoop l i).2 = get l i :=
    get_set_eq (siftupLoop l i).1 (siftupLoop l i).2 (get l i)
      (by rw [hspec.1]; exact hr2len)
  rw [hsu, hsd, hgB]
  apply ascend i (get l i) (siftupLoop l i).2
    ((siftupLoop l i).1.set (siftupLoop l i).2 (get l i))
    (by simp only [List.length_set]; rw [hspec.1]; exact hr2len) hir2 hreach2
  · -- every ordered edge away from the hole: the hole is a leaf, so its
    -- parent edge is the only unconstrained one
    intro j hj0 hjlen hreg hjne
    simp only [List.length_set, hspec.1] at hjlen
    have hpne : (j - 1) / 2 ≠ (siftupLoop l i).2 := by omega
    rw [List.set_set]
    rw [get_set_ne _ (get l i) (fun hc => hjne hc.symm),
      get_set_ne _ (get l i) (fun hc => hpne hc.symm)]
    exact hheap2 j hj0 hjlen hreg hjne hpne
  · -- the hole is a leaf: it has no children in range
    intro _ j hj0 hjlen hpj
    simp only [List.length_set, hspec.1] at hjlen
    omega

/-! ## `heapify` correctness -/

theorem isHeap_iff_heapFrom (l : List Entry) : isHeap l = true ↔ HeapFrom 0 l := by
  unfold isHeap HeapFrom
  rw [List.all_eq_true]
  constructor
  · intro h j hj0 hjlen _
    have hj := h j (List.mem_range.mpr hjlen)
    simp only [Bool.or_eq_true, beq_iff_eq, Bool.not_eq_true'] at hj
    rcases hj with hj | hj
    · omega
    · exact hj
  · intro h j hjmem
    rw [List.mem_range] at hjmem
    simp only [Bool.or_eq_true, beq_iff_eq, Bool.not_eq_true']
    by_cases hj0 : j = 0
    · exact Or.inl hj0
    · exact Or.inr (h j (by omega) hjmem (Nat.zero_le _))

theorem heapFrom_half (l : List Entry) : HeapFrom (l.length / 2) l := by
  intro j hj0 hjlen hreg
  exact absurd hreg (by omega)

theorem heapifyAux_heapFrom : ∀ (k : ℕ) (l : List Entry), 2 * k ≤ l.length →
    HeapFrom k l → HeapFrom 0 (heapifyAux l k) := by
  intro k
  induction k with
  | zero => intro l _ h; exact h
  | succ k ih =>
      intro l hk H
      show HeapFrom 0 (heapifyAux (siftup l k) k)
      apply ih
      · rw [siftup_length l k (by omega)]
        omega
      · exact siftup_heapFrom l k (by omega) H

/-- Every heapq `heapify` result satisfies the min-heap invariant. -/
theorem heapify_isHeap (l : List Entry) : isHeap (heapify l) = true := by
  rw [isHeap_iff_heapFrom]
  unfold heapify
  exact heapifyAux_heapFrom (l.length / 2) l (by omega) (heapFrom_half l)

end HunterSim.heapq

namespace HunterSim

/-! ## C5 -/

/-- C5: death via `receive_damage` (a landing hit that brings hp to 0 or
below) increments the hunter's kill counter by exactly 1, removes every
"enemy"-kind entry from the shared queue, leaves the multiset of entries of
every other kind untouched, and the resulting queue satisfies the min-heap
invariant. -/
theorem C5_death_cleanup (e : Enemy) (sim : Sim) (damage r : ℚ) (refl : Bool)
    (hland : refl = true ∨ ¬ (r < e.evade_chance))
    (hdead : e.hp - damage * (1 - e.damage_reduction) ≤ 0) :
    (Enemy.receive_damage e sim damage refl r).2.total_kills
        = sim.total_kills + 1 ∧
    (Enemy.receive_damage e sim damage refl r).2.queue.Perm
      (sim.queue.filter fun en => !(en.kind == "enemy")) ∧
    (∀ en : Entry, en.kind ≠ "enemy" →
      (Enemy.receive_damage e sim damage refl r).2.queue.count en
        = sim.queue.count en) ∧
    (∀ en : Entry, en.kind = "enemy" →
      (Enemy.receive_damage e sim damage refl r).2.queue.count en = 0) ∧
    heapq.isHeap (Enemy.receive_damage e sim damage refl r).2.queue = true := by
  have hcond : ¬(refl = false ∧ r < e.evade_chance) := by
    rcases hland with h | h
    · subst h
      simp
    · intro hc
      exact h hc.2
  have hsim : (Enemy.receive_damage e sim damage refl r).2
      = (Enemy.on_death sim).1 := by
    simp only [Enemy.receive_damage, if_neg hcond]
    rw [if_pos]
    simp only [Enemy.is_dead, decide_eq_true_eq]
    exact hdead
  have hq : (Enemy.on_death sim).1.queue
      = heapq.heapify (sim.queue.filter fun en => !(en.kind == "enemy")) := rfl
  have hperm : (Enemy.receive_damage e sim damage refl r).2.queue.Perm
      (sim.queue.filter fun en => !(en.kind == "enemy")) := by
    rw [hsim, hq]
    exact heapq.heapify_perm _
  refine ⟨by rw [hsim]; rfl, hperm, ?_, ?_, ?_⟩
  · intro en hen
    rw [hperm.count_eq en]
    apply List.count_filter
    simp [hen]
  · intro en hen
    rw [hperm.count_eq en, List.count_eq_zero]
    intro hmem
    have := (List.mem_filter.mp hmem).2
    simp [hen] at this
  · rw [hsim, hq]
    exact heapq.heapify_isHeap _

/-- Witness for C5: a lethal non-evadable hit at a concrete two-entry queue;
the kill counter increments, the enemy entry is purged, the hunter entry
survives, and the resulting queue is a heap. -/
theorem C5_death_cleanup_witness :
    ((false : Bool) = true ∨ ¬ ((1/2 : ℚ) < (⟨"E", 1, 1, 0, 0, 0, 0, 0, 0, 0, 0⟩ : Enemy).evade_chance)) ∧
    ((⟨"E", 1, 1, 0, 0, 0, 0, 0, 0, 0, 0⟩ : Enemy).hp - 5 * (1 - (⟨"E", 1, 1, 0, 0, 0, 0, 0, 0, 0, 0⟩ : Enemy).damage_reduction) ≤ 0) ∧
    (Enemy.receive_damage ⟨"E", 1, 1, 0, 0, 0, 0, 0, 0, 0, 0⟩
        ⟨[⟨1, 1, "enemy"⟩, ⟨2, 2, "hunter"⟩], 0, []⟩ 5 false (1/2)).2.total_kills
      = (⟨[⟨1, 1, "enemy"⟩, ⟨2, 2, "hunter"⟩], 0, []⟩ : Sim).total_kills + 1 ∧
    (∀ en : Entry, en.kind = "enemy" →
      (Enemy.receive_damage ⟨"E", 1, 1, 0, 0, 0, 0, 0, 0, 0, 0⟩
        ⟨[⟨1, 1, "enemy"⟩, ⟨2, 2, "hunter"⟩], 0, []⟩ 5 false (1/2)).2.queue.count en = 0) ∧
    heapq.isHeap (Enemy.receive_damage ⟨"E", 1, 1, 0, 0, 0, 0, 0, 0, 0, 0⟩
        ⟨[⟨1, 1, "enemy"⟩, ⟨2, 2, "hunter"⟩], 0, []⟩ 5 false (1/2)).2.queue = true :=
  ⟨Or.inr (by norm_num), by norm_num,
    (C5_death_cleanup _ _ 5 (1/2) false (Or.inr (by norm_num)) (by norm_num)).1,
    (C5_death_cleanup _ _ 5 (1/2) false (Or.inr (by norm_num)) (by norm_num)).2.2.2.1,
    (C5_death_cleanup _ _ 5 (1/2) false (Or.inr (by norm_num)) (by norm_num)).2.2.2.2⟩

/-! ## C3 -/

/-- C3 amended: with exactly one "enemy"-kind entry `(t, tb, "enemy")` in the
queue, `stun(duration)` succeeds and replaces it by `(t+duration, tb,
"enemy")`: the new queue is, as a multiset, the old queue with exactly that
one entry rescheduled — it contains exactly one "enemy"-kind entry, namely
the shifted one, and every entry of any other kind is unchanged.  (The claim's
further assertion that the min-heap order is re-established is false: see the
counterexample — the plain list removal before the push can leave the result
violating the heap invariant.) -/
theorem C3_stun_reschedule (sim : Sim) (t : ℚ) (tb : ℤ) (dur : ℚ)
    (h : sim.queue.filter (fun en => en.kind == "enemy") = [⟨t, tb, "enemy"⟩]) :
    Enemy.stun sim dur = some { sim with
      queue := heapq.heappush (sim.queue.erase ⟨t, tb, "enemy"⟩)
        ⟨t + dur, tb, "enemy"⟩ } ∧
    (heapq.heappush (sim.queue.erase ⟨t, tb, "enemy"⟩)
      ⟨t + dur, tb, "enemy"⟩).Perm
        (⟨t + dur, tb, "enemy"⟩ :: sim.queue.erase ⟨t, tb, "enemy"⟩) ∧
    (heapq.heappush (sim.queue.erase ⟨t, tb, "enemy"⟩)
      ⟨t + dur, tb, "enemy"⟩).countP (fun en => en.kind == "enemy") = 1 ∧
    (⟨t + dur, tb, "enemy"⟩ : Entry) ∈
      heapq.heappush (sim.queue.erase ⟨t, tb, "enemy"⟩) ⟨t + dur, tb, "enemy"⟩ ∧
    (∀ en : Entry, en.kind ≠ "enemy" →
      (heapq.heappush (sim.queue.erase ⟨t, tb, "enemy"⟩)
        ⟨t + dur, tb, "enemy"⟩).count en = sim.queue.count en) := by
  have hmemf : (⟨t, tb, "enemy"⟩ : Entry) ∈
      sim.queue.filter (fun en => en.kind == "enemy") := by
    rw [h]
    exact List.mem_singleton.mpr rfl
  have hmem : (⟨t, tb, "enemy"⟩ : Entry) ∈ sim.queue :=
    (List.mem_filter.mp hmemf).1
  have hperm : (heapq.heappush (sim.queue.erase ⟨t, tb, "enemy"⟩)
      ⟨t + dur, tb, "enemy"⟩).Perm
        (⟨t + dur, tb, "enemy"⟩ :: sim.queue.erase ⟨t, tb, "enemy"⟩) :=
    (heapq.heappush_perm _ _).trans (List.perm_append_singleton _ _)
  have hcount1 : sim.queue.countP (fun en => en.kind == "enemy") = 1 := by
    rw [List.countP_eq_length_filter, h]
    rfl
  have hqperm : sim.queue.Perm
      (⟨t, tb, "enemy"⟩ :: sim.queue.erase ⟨t, tb, "enemy"⟩) :=
    List.perm_cons_erase hmem
  have hcerase : (sim.queue.erase ⟨t, tb, "enemy"⟩).countP
      (fun en => en.kind == "enemy") = 0 := by
    have := hqperm.countP_eq (fun en => en.kind == "enemy")
    rw [hcount1, List.countP_cons_of_pos _ _ (by simp)] at this
    omega
  refine ⟨?_, hperm, ?_, ?_, ?_⟩
  · unfold Enemy.stun
    rw [h]
  · rw [hperm.countP_eq, List.countP_cons_of_pos _ _ (by simp), hcerase]
  · rw [hperm.mem_iff]
    exact List.mem_cons_self _ _
  · intro en hen
    have hne1 : en ≠ ⟨t + dur, tb, "enemy"⟩ := by
      intro hc
      subst hc
      exact hen rfl
    have hne2 : en ≠ ⟨t, tb, "enemy"⟩ := by
      intro hc
      subst hc
      exact hen rfl
    rw [hperm.count_eq en, List.count_cons_of_ne hne1,
      List.count_erase_of_ne hne2]

/-- Witness for C3 amended at a concrete two-entry queue with the enemy entry
at time 1 and a stun of duration 3. -/
theorem C3_stun_reschedule_witness :
    ((⟨[⟨1, 1, "enemy"⟩, ⟨2, 2, "hunter"⟩], 0, []⟩ : Sim).queue.filter
        (fun en => en.kind == "enemy") = [⟨1, 1, "enemy"⟩]) ∧
    Enemy.stun ⟨[⟨1, 1, "enemy"⟩, ⟨2, 2, "hunter"⟩], 0, []⟩ 3
      = some { (⟨[⟨1, 1, "enemy"⟩, ⟨2, 2, "hunter"⟩], 0, []⟩ : Sim) with
          queue := heapq.heappush
            ((⟨[⟨1, 1, "enemy"⟩, ⟨2, 2, "hunter"⟩], 0, []⟩ : Sim).queue.erase
              ⟨1, 1, "enemy"⟩) ⟨(1 : ℚ) + 3, 1, "enemy"⟩ } ∧
    (heapq.heappush ((⟨[⟨1, 1, "enemy"⟩, ⟨2, 2, "hunter"⟩], 0, []⟩ : Sim).queue.erase
        ⟨1, 1, "enemy"⟩) ⟨(1 : ℚ) + 3, 1, "enemy"⟩).countP
      (fun en => en.kind == "enemy") = 1 ∧
    (heapq.heappush ((⟨[⟨1, 1, "enemy"⟩, ⟨2, 2, "hunter"⟩], 0, []⟩ : Sim).queue.erase
        ⟨1, 1, "enemy"⟩) ⟨(1 : ℚ) + 3, 1, "enemy"⟩).count ⟨2, 2, "hunter"⟩
      = (⟨[⟨1, 1, "enemy"⟩, ⟨2, 2, "hunter"⟩], 0, []⟩ : Sim).queue.count
          ⟨2, 2, "hunter"⟩ :=
  ⟨by decide,
    (C3_stun_reschedule _ 1 1 3 (by decide)).1,
    (C3_stun_reschedule _ 1 1 3 (by decide)).2.2.1,
    (C3_stun_reschedule _ 1 1 3 (by decide)).2.2.2.2 ⟨2, 2, "hunter"⟩ (by decide)⟩

end HunterSim

namespace HunterSim

/-- C3 counterexample: a valid five-entry min-heap whose single "enemy" entry
sits at index 1; `stun(3)` removes it by plain list removal (which breaks the
heap shape) and then heap-pushes the rescheduled entry, leaving a queue that
violates the min-heap invariant — the claim's "min-heap order re-established
immediately" is false. -/
theorem C3_counterexample :
    heapq.isHeap [(⟨0, 0, "hunter"⟩ : Entry), ⟨1, 1, "enemy"⟩, ⟨5, 2, "hunter"⟩,
      ⟨2, 3, "hunter"⟩, ⟨3, 4, "hunter"⟩] = true ∧
    Option.map (fun s => heapq.isHeap s.queue)
      (Enemy.stun ⟨[⟨0, 0, "hunter"⟩, ⟨1, 1, "enemy"⟩, ⟨5, 2, "hunter"⟩,
        ⟨2, 3, "hunter"⟩, ⟨3, 4, "hunter"⟩], 0, []⟩ 3) = some false := by
  constructor
  · decide
  · have hstun : Enemy.stun ⟨[⟨0, 0, "hunter"⟩, ⟨1, 1, "enemy"⟩, ⟨5, 2, "hunter"⟩,
        ⟨2, 3, "hunter"⟩, ⟨3, 4, "hunter"⟩], 0, []⟩ 3
        = some ⟨heapq.heappush [⟨0, 0, "hunter"⟩, ⟨5, 2, "hunter"⟩,
            ⟨2, 3, "hunter"⟩, ⟨3, 4, "hunter"⟩] ⟨1 + 3, 1, "enemy"⟩, 0, []⟩ := rfl
    have hN : (⟨1 + 3, 1, "enemy"⟩ : Entry) = ⟨4, 1, "enemy"⟩ := by norm_num
    rw [hstun, hN]
    have hpush : heapq.heappush [(⟨0, 0, "hunter"⟩ : Entry), ⟨5, 2, "hunter"⟩,
        ⟨2, 3, "hunter"⟩, ⟨3, 4, "hunter"⟩] ⟨4, 1, "enemy"⟩
        = [⟨0, 0, "hunter"⟩, ⟨4, 1, "enemy"⟩, ⟨2, 3, "hunter"⟩,
            ⟨3, 4, "hunter"⟩, ⟨5, 2, "hunter"⟩] := by
      simp only [heapq.heappush, heapq.siftdown]
      rw [heapq.siftdownLoop, dif_pos (by decide), if_pos (by decide)]
      rw [heapq.siftdownLoop, dif_pos (by decide), if_neg (by decide)]
      decide
    rw [hpush]
    decide

end HunterSim
